import Mathlib

/-!
# Shallow embedding of the MIEHL7 HL7 parsing and field-dictionary core

This file embeds, in Lean, the HL7 v2.x pipe-encoding parser
(`parseHL7Message`, `parseSegment`, `parseField`) and the field-dictionary /
EMR-configurability layer (`getFieldDefinition`, `getComponentDefinition`,
`isEmrConfigurable`, `getEmrConfig`, `getFieldLabel`, `saveFieldUpdate`,
`saveEmrUpdate`) of the repository, and proves the spec's claims about them.

JavaScript strings are modelled as Lean `String` values whose character
list is accessed through `String.data`; the JavaScript primitives the code
uses (`String.prototype.split` with a one-character separator,
`substring`, `trim`, `parseInt`, the two `replace` calls, `Array.prototype.find`,
`Map.get` / `Map.has` / `Map.set`) are each given an explicit executable
model below.  The two mutable module-level `Map`s are passed explicitly as
lookup functions (`SegmentMap`, `EmrConfigMap`), and the asynchronous
`fetch` round trip of the save actions is modelled by handing the
collaborator's response (or the thrown error) to the function as an
`Except` argument.
-/

namespace MIEHL7

/-- Model of JavaScript `s.split(sep)` for a one-character separator, on the
character list: always yields at least one piece, `"".split(sep) == [""]`. -/
def splitCh (sep : Char) : List Char → List (List Char)
  | [] => [[]]
  | c :: cs =>
    let r := splitCh sep cs
    if c = sep then [] :: r else (c :: r.headD []) :: r.tail

/-- JavaScript `s.split(sep)` returning strings. -/
def jsSplit (sep : Char) (s : String) : List String :=
  (splitCh sep s.data).map String.mk

/-- Model of the global regex replace `raw.replace(/\r\n/g, '\r')`:
one left-to-right, non-overlapping pass replacing each CR LF pair by CR. -/
def replaceCRLF : List Char → List Char
  | [] => []
  | [c] => [c]
  | c₁ :: c₂ :: rest =>
    if c₁ = '\r' ∧ c₂ = '\n' then '\r' :: replaceCRLF rest
    else c₁ :: replaceCRLF (c₂ :: rest)

/-- Model of `raw.replace(/\n/g, '\r')`. -/
def replaceLF (l : List Char) : List Char :=
  l.map (fun c => if c = '\n' then '\r' else c)

/-- The character class JavaScript's `String.prototype.trim` strips
(ECMAScript WhiteSpace and LineTerminator code points). -/
def isJsWhitespace (c : Char) : Bool :=
  let n := c.toNat
  n = 0x9 || n = 0xA || n = 0xB || n = 0xC || n = 0xD || n = 0x20 ||
  n = 0xA0 || n = 0x1680 || (0x2000 ≤ n && n ≤ 0x200A) ||
  n = 0x2028 || n = 0x2029 || n = 0x202F || n = 0x205F || n = 0x3000 || n = 0xFEFF

/-- Model of JavaScript `s.trim()` on the character list. -/
def jsTrim (l : List Char) : List Char :=
  ((l.dropWhile isJsWhitespace).reverse.dropWhile isJsWhitespace).reverse

/- ## Parsed structures (src/lib/types.ts) -/

structure ParsedComponent where
  value : String
  position : String
deriving Repr, DecidableEq

structure ParsedField where
  position : String
  value : String
  components : List ParsedComponent
  repetitions : List String
  raw : String
deriving Repr, DecidableEq

structure ParsedSegment where
  name : String
  fields : List ParsedField
  raw : String
deriving Repr, DecidableEq

structure ParsedMessage where
  segments : List ParsedSegment
  messageType : String
  timestamp : String
  raw : String
  fileName : Option String
deriving Repr, DecidableEq

/- ## The parser (src/lib/hl7-parser.ts) -/

/-- `parseField(raw, position)`: repetitions are the raw value split on `~`;
components are the raw value split on `^`, each positioned
`position + "." + (index + 1)`. -/
def parseField (raw : String) (position : String) : ParsedField :=
  let repetitions := jsSplit '~' raw
  let componentStrings := jsSplit '^' raw
  let components : List ParsedComponent := componentStrings.enum.map
    (fun p => { value := p.2, position := position ++ "." ++ toString (p.1 + 1) })
  { position := position, value := raw, components := components,
    repetitions := repetitions, raw := raw }

/-- `raw.substring(0, 3)`: the segment name of a line. -/
def segName (raw : String) : String :=
  String.mk (raw.data.take 3)

/-- The `fieldStrings` local of `parseSegment`: an MSH line is split as
`['MSH', '|', ...raw.substring(4).split('|')]`, any other line as
`raw.split('|')`. -/
def segFieldStrings (raw : String) : List String :=
  if segName raw = "MSH" then
    "MSH" :: "|" :: jsSplit '|' (String.mk (raw.data.drop 4))
  else jsSplit '|' raw

/-- `parseSegment(raw)`: each split token becomes a field positioned
`segmentName + "." + index`. -/
def parseSegment (raw : String) : ParsedSegment :=
  { name := segName raw
    fields := (segFieldStrings raw).enum.map
      (fun p => parseField p.2 (segName raw ++ "." ++ toString p.1))
    raw := raw }

/-- The `segmentStrings`/`segments` locals of `parseHL7Message`: normalize
line endings to CR, split on CR, drop the lines that are blank after
`trim()`, and parse each remaining line. -/
def messageSegments (raw : String) : List ParsedSegment :=
  (((jsSplit '\r' (String.mk (replaceLF (replaceCRLF raw.data))))).filter
    (fun s => (jsTrim s.data).length > 0)).map parseSegment

/-- The extraction `if (msh) { if (msh.fields[i]) v = msh.fields[i].value }`
performed by `parseHL7Message` for `messageType` (i = 8) and `timestamp`
(i = 6): the value at array index `i` of the first segment named `MSH`, or
`""` when that segment or that index is absent. -/
def extractMshField (segments : List ParsedSegment) (i : Nat) : String :=
  match segments.find? (fun s => s.name == "MSH") with
  | some m => match m.fields.get? i with | some f => f.value | none => ""
  | none => ""

/-- `parseHL7Message(raw, fileName)`. -/
def parseHL7Message (raw : String) (fileName : Option String) : ParsedMessage :=
  { segments := messageSegments raw
    messageType := extractMshField (messageSegments raw) 8
    timestamp := extractMshField (messageSegments raw) 6
    raw := raw
    fileName := fileName }

/- ## Dictionary structures (src/lib/types.ts) -/

structure ComponentDefinition where
  position : Int
  name : String
  dataType : String
  description : Option String
deriving Repr, DecidableEq

structure FieldDefinition where
  field : Int
  name : String
  dataType : String
  description : String
  maxLength : Option Int
  required : Option Bool
  components : Option (List ComponentDefinition)
deriving Repr, DecidableEq

structure SegmentDefinitions where
  segment : String
  name : String
  description : String
  fields : List FieldDefinition
deriving Repr, DecidableEq

structure EmrConfigEntry where
  fieldPosition : String
  fieldName : String
  emrLocation : String
  imagePaths : List String
  notes : Option String
deriving Repr, DecidableEq

/-- The module-level `segmentMap : Map<string, SegmentDefinitions>`,
modelled by its lookup function (`Map.get`; `Map.has` is `isSome`). -/
abbrev SegmentMap := String → Option SegmentDefinitions

/-- The module-level `emrConfigMap : Map<string, EmrConfigEntry>`,
modelled by its lookup function. -/
abbrev EmrConfigMap := String → Option EmrConfigEntry

/-- Model of JavaScript `parseInt(s, 10)`: skip leading whitespace, read an
optional sign and then the longest run of decimal digits; `none` models the
`NaN` result produced when no digit is found. -/
def jsParseInt10 (s : String) : Option Int :=
  let l := s.data.dropWhile isJsWhitespace
  let digits (m : List Char) : Option Nat :=
    let ds := m.takeWhile (fun c => '0' ≤ c && c ≤ '9')
    if ds.isEmpty then none
    else some (ds.foldl (fun acc c => acc * 10 + (c.toNat - '0'.toNat)) 0)
  match l with
  | '-' :: rest => (digits rest).map (fun n => -(n : Int))
  | '+' :: rest => (digits rest).map (fun n => (n : Int))
  | rest => (digits rest).map (fun n => (n : Int))

/-- `getFieldDefinition(segmentName, fieldIndex)`. The `fieldIndex` argument
is an `Option Int`: `none` models `NaN` (as produced by `parseInt` on a
non-numeric part), for which the strict equality `f.field === fieldIndex`
of the `find` callback is always false. -/
def getFieldDefinition (segmentMap : SegmentMap) (segmentName : String)
    (fieldIndex : Option Int) : Option FieldDefinition :=
  match segmentMap segmentName with
  | none => none
  | some seg => seg.fields.find? (fun f => some f.field == fieldIndex)

/-- `getComponentDefinition(segmentName, fieldIndex, componentIndex)`. -/
def getComponentDefinition (segmentMap : SegmentMap) (segmentName : String)
    (fieldIndex componentIndex : Option Int) : Option ComponentDefinition :=
  match getFieldDefinition segmentMap segmentName fieldIndex with
  | none => none
  | some field =>
    match field.components with
    | none => none
    | some comps => comps.find? (fun c => some c.position == componentIndex)

/-- `isEmrConfigurable(position)`: exact key, else — when the position has
exactly 3 dot-separated parts — its 2-part parent, else false. -/
def isEmrConfigurable (emrConfigMap : EmrConfigMap) (position : String) : Bool :=
  if (emrConfigMap position).isSome then true
  else
    match jsSplit '.' position with
    | [a, b, _] => (emrConfigMap (a ++ "." ++ b)).isSome
    | _ => false

/-- `getEmrConfig(position)`: the entry under the same resolution rule as
`isEmrConfigurable`, absent otherwise. -/
def getEmrConfig (emrConfigMap : EmrConfigMap) (position : String) :
    Option EmrConfigEntry :=
  match emrConfigMap position with
  | some exact => some exact
  | none =>
    match jsSplit '.' position with
    | [a, b, _] => emrConfigMap (a ++ "." ++ b)
    | _ => none

/-- `getFieldLabel(position)`: parse the position, look up the field
definition (returning the position unchanged when it is absent or the
position has fewer than 2 parts); on a 3-part position with a known
component return `"<fieldName> › <componentName>"`, else the field name. -/
def getFieldLabel (segmentMap : SegmentMap) (position : String) : String :=
  match jsSplit '.' position with
  | p0 :: p1 :: rest =>
    let fieldIndex := jsParseInt10 p1
    match getFieldDefinition segmentMap p0 fieldIndex with
    | none => position
    | some field =>
      match rest with
      | [p2] =>
        match getComponentDefinition segmentMap p0 fieldIndex (jsParseInt10 p2) with
        | some component => field.name ++ " › " ++ component.name
        | none => field.name
      | _ => field.name
  | _ => position

/- ## Save actions (src/lib/field-dictionary.ts) -/

/-- The parsed JSON body of the sidecar's reply to `/api/update-field`. -/
structure FieldApiResult where
  success : Bool
  message : Option String
deriving Repr, DecidableEq

/-- The parsed JSON body of the sidecar's reply to `/api/update-emr`. -/
structure EmrApiResult where
  success : Bool
  data : Option EmrConfigEntry
  message : Option String
deriving Repr, DecidableEq

/-- The `Partial<EmrConfigEntry>` request payload of `saveEmrUpdate`. -/
structure PartialEmrConfigEntry where
  fieldPosition : Option String
  fieldName : Option String
  emrLocation : Option String
  imagePaths : Option (List String)
  notes : Option String
deriving Repr, DecidableEq

/-- The two module-level mutable maps, as one state record. -/
structure DictState where
  segmentMap : SegmentMap
  emrConfigMap : EmrConfigMap

/-- What a save action hands back to its caller: the collaborator's parsed
response, or — when the `fetch`/`json` round trip threw — the
`{ success: false, error }` object built in the `catch` branch. -/
inductive SaveOutcome (ρ : Type) where
  | api (result : ρ)
  | failed (error : String)
deriving Repr, DecidableEq

/-- Replace the first list element satisfying `p` by its image under `f`
(the in-place mutation of the object `Array.prototype.find` returned). -/
def updateFirst (p : α → Bool) (f : α → α) : List α → List α
  | [] => []
  | x :: xs => if p x then f x :: xs else x :: updateFirst p f xs

/-- `saveFieldUpdate(segment, fieldIndex, name, description)`.  The
collaborator's behaviour is the `response` argument: `.error err` models the
`fetch`/`res.json()` call throwing, `.ok result` the parsed reply.  Only a
reply with `success: true` mutates the in-memory map, by overwriting
`name`/`description` of the first field definition whose number matches. -/
def saveFieldUpdate (st : DictState) (response : Except String FieldApiResult)
    (segment : String) (fieldIndex : Int) (name description : String) :
    DictState × SaveOutcome FieldApiResult :=
  match response with
  | .error err => (st, .failed err)
  | .ok result =>
    if result.success then
      match getFieldDefinition st.segmentMap segment (some fieldIndex) with
      | none => (st, .api result)
      | some _ =>
        let editField : FieldDefinition → FieldDefinition := fun f =>
          { f with name := name, description := description }
        let editSeg : SegmentDefinitions → SegmentDefinitions := fun seg =>
          { seg with fields :=
              updateFirst (fun f => f.field == fieldIndex) editField seg.fields }
        let newMap : SegmentMap := fun s =>
          if s = segment then (st.segmentMap s).map editSeg else st.segmentMap s
        ({ st with segmentMap := newMap }, .api result)
    else (st, .api result)

/-- `saveEmrUpdate(position, data)`: only a reply with `success: true` and a
present `data` entry mutates the map, storing the collaborator's returned
entry at `position`; the request payload itself is never stored. -/
def saveEmrUpdate (st : DictState) (response : Except String EmrApiResult)
    (position : String) (payload : PartialEmrConfigEntry) :
    DictState × SaveOutcome EmrApiResult :=
  match response with
  | .error err => (st, .failed err)
  | .ok result =>
    match result.data with
    | some entry =>
      if result.success then
        ({ st with emrConfigMap := fun p =>
            if p = position then some entry else st.emrConfigMap p }, .api result)
      else (st, .api result)
    | none => (st, .api result)

/- ## Helper lemmas -/

theorem splitCh_ne_nil (sep : Char) (l : List Char) : splitCh sep l ≠ [] := by
  cases l with
  | nil => simp [splitCh]
  | cons c cs => simp only [splitCh]; split <;> simp

theorem length_splitCh (sep : Char) (l : List Char) :
    (splitCh sep l).length = l.count sep + 1 := by
  induction l with
  | nil => simp [splitCh]
  | cons c cs ih =>
    rcases h : splitCh sep cs with _ | ⟨t, ts⟩
    · exact absurd h (splitCh_ne_nil sep cs)
    · by_cases hc : c = sep
      · subst hc
        simp [splitCh, h, List.count_cons, ← ih]
      · simp [splitCh, h, hc, List.count_cons, ← ih]

theorem length_jsSplit (sep : Char) (s : String) :
    (jsSplit sep s).length = s.data.count sep + 1 := by
  simp [jsSplit, length_splitCh]

theorem mem_of_mem_splitCh {sep : Char} :
    ∀ {l t : List Char}, t ∈ splitCh sep l → ∀ c ∈ t, c ∈ l := by
  intro l
  induction l with
  | nil =>
    intro t ht c hc
    simp [splitCh] at ht
    subst ht
    simp at hc
  | cons a as ih =>
    intro t ht c hc
    rcases h : splitCh sep as with _ | ⟨u, us⟩
    · exact absurd h (splitCh_ne_nil sep as)
    · by_cases ha : a = sep
      · subst ha
        simp only [splitCh, h, if_pos rfl] at ht
        rcases List.mem_cons.mp ht with h1 | h1
        · subst h1; simp at hc
        · refine List.mem_cons_of_mem _ (ih ?_ c hc)
          rw [h]; exact h1
      · simp only [splitCh, h, if_neg ha, List.headD_cons, List.tail_cons] at ht
        rcases List.mem_cons.mp ht with h1 | h1
        · subst h1
          rcases List.mem_cons.mp hc with h2 | h2
          · exact h2 ▸ List.mem_cons_self _ _
          · refine List.mem_cons_of_mem _ (ih ?_ c h2)
            rw [h]; exact List.mem_cons_self u us
        · refine List.mem_cons_of_mem _ (ih ?_ c hc)
          rw [h]; exact List.mem_cons_of_mem u h1

theorem map_enumFrom_ext {α β γ : Type} (f : Nat → α → β) (v : β → γ)
    (g : Nat → α → γ) (hv : ∀ i a, v (f i a) = g i a) :
    ∀ (n : Nat) (l : List α),
      ((List.enumFrom n l).map (fun p => f p.1 p.2)).map v
        = (List.enumFrom n l).map (fun p => g p.1 p.2) := by
  intro n l
  induction l generalizing n with
  | nil => rfl
  | cons a as ih => simp [List.enumFrom, hv, ih]

theorem map_snd_enumFrom {α : Type} :
    ∀ (n : Nat) (l : List α), (List.enumFrom n l).map Prod.snd = l := by
  intro n l
  induction l generalizing n with
  | nil => rfl
  | cons a as ih => simp [List.enumFrom, ih]

theorem enumFrom_map_const_fst {α γ : Type} (g : Nat → γ) :
    ∀ (n : Nat) (l : List α),
      (List.enumFrom n l).map (fun p => g p.1) = (List.range' n l.length).map g := by
  intro n l
  induction l generalizing n with
  | nil => rfl
  | cons a as ih => simp [List.enumFrom, List.range', ih]

theorem map_value_parseFields (nm : String) :
    ∀ (n : Nat) (l : List String),
      ((List.enumFrom n l).map
          (fun p => parseField p.2 (nm ++ "." ++ toString p.1))).map
        ParsedField.value = l := by
  intro n l
  induction l generalizing n with
  | nil => rfl
  | cons a as ih =>
    simp only [List.enumFrom, List.map_cons]
    rw [ih]
    rfl

theorem map_position_parseFields (nm : String) :
    ∀ (n : Nat) (l : List String),
      ((List.enumFrom n l).map
          (fun p => parseField p.2 (nm ++ "." ++ toString p.1))).map
        ParsedField.position
      = (List.range' n l.length).map (fun i => nm ++ "." ++ toString i) := by
  intro n l
  induction l generalizing n with
  | nil => rfl
  | cons a as ih =>
    simp only [List.enumFrom, List.map_cons, List.length_cons, List.range']
    rw [ih]
    rfl

theorem map_value_components (pos : String) :
    ∀ (n : Nat) (l : List String),
      ((List.enumFrom n l).map
          (fun p => ({ value := p.2,
                       position := pos ++ "." ++ toString (p.1 + 1) } :
            ParsedComponent))).map ParsedComponent.value = l := by
  intro n l
  induction l generalizing n with
  | nil => rfl
  | cons a as ih => simp [List.enumFrom, ih]

theorem map_position_components (pos : String) :
    ∀ (n : Nat) (l : List String),
      ((List.enumFrom n l).map
          (fun p => ({ value := p.2,
                       position := pos ++ "." ++ toString (p.1 + 1) } :
            ParsedComponent))).map ParsedComponent.position
      = (List.range' n l.length).map (fun i => pos ++ "." ++ toString (i + 1)) := by
  intro n l
  induction l generalizing n with
  | nil => rfl
  | cons a as ih => simp [List.enumFrom, List.range', ih]

theorem parseSegment_fields_map_value (raw : String) :
    (parseSegment raw).fields.map ParsedField.value = segFieldStrings raw :=
  map_value_parseFields (segName raw) 0 (segFieldStrings raw)

theorem parseSegment_fields_map_position (raw : String) :
    (parseSegment raw).fields.map ParsedField.position
      = (List.range (segFieldStrings raw).length).map
          (fun i => segName raw ++ "." ++ toString i) := by
  rw [List.range_eq_range']
  exact map_position_parseFields (segName raw) 0 (segFieldStrings raw)

theorem parseSegment_fields_length (raw : String) :
    (parseSegment raw).fields.length = (segFieldStrings raw).length := by
  have h := congrArg List.length (parseSegment_fields_map_value raw)
  simpa using h

theorem segFieldStrings_msh (raw : String) (h : segName raw = "MSH") :
    segFieldStrings raw
      = "MSH" :: "|" :: jsSplit '|' (String.mk (raw.data.drop 4)) := by
  simp [segFieldStrings, h]

theorem segFieldStrings_not_msh (raw : String) (h : segName raw ≠ "MSH") :
    segFieldStrings raw = jsSplit '|' raw := by
  simp [segFieldStrings, h]

theorem data_mk (l : List Char) : (String.mk l).data = l := rfl

/- ## The spec's claims -/

/-- **C1.** For every input line whose first three characters are `MSH`, the
segment parser builds the field array as `[name, "|", ...rest]` where
`rest` is the substring starting immediately after the 4th character split
on `'|'`: the field values are `"MSH" :: "|" :: thatSplit`, `fields[1]`
equals `"|"` exactly, the array length is
`2 + (number of '|' in the substring after the 4th character) + 1`, and a
line shorter than 4 characters yields an empty rest (field values
`["MSH", "|", ""]`) with no error. -/
theorem msh_segment_field_array (raw : String) (h : segName raw = "MSH") :
    (parseSegment raw).fields.map ParsedField.value
        = "MSH" :: "|" :: jsSplit '|' (String.mk (raw.data.drop 4))
    ∧ ((parseSegment raw).fields.get? 1).map ParsedField.value = some "|"
    ∧ (parseSegment raw).fields.length = 2 + (raw.data.drop 4).count '|' + 1
    ∧ (raw.data.length < 4 →
        String.mk (raw.data.drop 4) = "" ∧
        (parseSegment raw).fields.map ParsedField.value = ["MSH", "|", ""]) := by
  have hv := parseSegment_fields_map_value raw
  rw [segFieldStrings_msh raw h] at hv
  refine ⟨hv, ?_, ?_, ?_⟩
  · have h1 : ((parseSegment raw).fields.map ParsedField.value).get? 1
        = some "|" := by rw [hv]; rfl
    rwa [List.get?_map] at h1
  · have hl := parseSegment_fields_length raw
    rw [segFieldStrings_msh raw h] at hl
    simp only [List.length_cons, length_jsSplit, data_mk] at hl
    omega
  · intro hlen
    have hdrop : raw.data.drop 4 = [] :=
      List.drop_eq_nil_of_le (by omega)
    refine ⟨by rw [hdrop], ?_⟩
    rw [hv, hdrop]
    rfl

/-- Witness for C1: on the line `"MSH|^~\&|AppA"`, `fields[1]` is `"|"`. -/
theorem msh_segment_field_array_witness :
    ((parseSegment "MSH|^~\\&|AppA").fields.get? 1).map ParsedField.value
      = some "|" :=
  (msh_segment_field_array "MSH|^~\\&|AppA" (by decide)).2.1

/-- **C3.** For every raw field string with `m` occurrences of `'^'`, the
field parser produces exactly `m + 1` components, one per `'^'`-split
token, with 1-based component indices appended to the field's position
string, computed from the whole raw value (its `'^'`-split) independently
of any `'~'` present; the repetition list is the raw value split on `'~'`
and always has `count '~' + 1 ≥ 1` elements; the empty input yields one
repetition equal to `""` and one component equal to `""` at index 1. -/
theorem field_components_independent_of_repetitions (raw position : String) :
    (parseField raw position).components.length = raw.data.count '^' + 1
    ∧ (parseField raw position).components.map ParsedComponent.value
        = jsSplit '^' raw
    ∧ (parseField raw position).components.map ParsedComponent.position
        = (List.range (raw.data.count '^' + 1)).map
            (fun i => position ++ "." ++ toString (i + 1))
    ∧ (parseField raw position).repetitions = jsSplit '~' raw
    ∧ (parseField raw position).repetitions.length = raw.data.count '~' + 1
    ∧ (parseField "" position).components
        = [{ value := "", position := position ++ "." ++ toString 1 }]
    ∧ (parseField "" position).repetitions = [""] := by
  have hv : (parseField raw position).components.map ParsedComponent.value
      = jsSplit '^' raw :=
    map_value_components position 0 (jsSplit '^' raw)
  have hlen : (parseField raw position).components.length
      = raw.data.count '^' + 1 := by
    have h1 := congrArg List.length hv
    simpa [length_jsSplit] using h1
  refine ⟨hlen, hv, ?_, rfl, length_jsSplit '~' raw, rfl, rfl⟩
  have hp := map_position_components position 0 (jsSplit '^' raw)
  rw [← List.range_eq_range', length_jsSplit] at hp
  exact hp

/-- **C4 counterexample.** On the non-empty line `"PIDX|1"` (a
non-distinguished segment line), the parsed segment's name is `"PID"` (its
first three characters) but `fields[0]` is the whole first `'|'`-token
`"PIDX"`, so `fields[0]` does not equal the segment's name as the claim
states. -/
theorem segment_field0_counterexample :
    (parseSegment "PIDX|1").name = "PID"
    ∧ ((parseSegment "PIDX|1").fields.map ParsedField.value).head? = some "PIDX"
    ∧ ((parseSegment "PIDX|1").fields.map ParsedField.value).head?
        ≠ some (parseSegment "PIDX|1").name := by
  refine ⟨by decide, by decide, by decide⟩

/-- **C4 amended.** For every non-distinguished-segment line with `k`
occurrences of `'|'`, the segment parser produces exactly `k + 1` fields
positioned `SEG.0 .. SEG.k` — and `fields[0]` equals the segment's name
(its first three characters) under the proviso that the line's first
`'|'`-token is exactly those first three characters (as in every
well-formed line `SEG|...` with a 3-letter code). -/
theorem segment_nonMsh_spec (raw : String) (h : segName raw ≠ "MSH") :
    (parseSegment raw).fields.map ParsedField.value = jsSplit '|' raw
    ∧ (parseSegment raw).fields.length = raw.data.count '|' + 1
    ∧ (parseSegment raw).fields.map ParsedField.position
        = (List.range (raw.data.count '|' + 1)).map
            (fun i => segName raw ++ "." ++ toString i)
    ∧ ((jsSplit '|' raw).head? = some (segName raw) →
        ((parseSegment raw).fields.map ParsedField.value).head?
          = some (parseSegment raw).name) := by
  have hv := parseSegment_fields_map_value raw
  rw [segFieldStrings_not_msh raw h] at hv
  have hl := parseSegment_fields_length raw
  rw [segFieldStrings_not_msh raw h, length_jsSplit] at hl
  refine ⟨hv, hl, ?_, ?_⟩
  · have hp := parseSegment_fields_map_position raw
    rw [segFieldStrings_not_msh raw h, length_jsSplit] at hp
    exact hp
  · intro hhd
    rw [hv, hhd]
    rfl

/-- Witness for the amended C4: on `"PID|1"` the first field value is the
segment name `"PID"`. -/
theorem segment_nonMsh_spec_witness :
    ((parseSegment "PID|1").fields.map ParsedField.value).head?
      = some (parseSegment "PID|1").name :=
  (segment_nonMsh_spec "PID|1" (by decide)).2.2.2 (by decide)

/-- **C5.** For every position string `p` and every state of the
configurability table: `isEmrConfigurable` returns true iff `p` is an exact
key, or `p` has exactly 3 dot-separated parts and its 2-part parent is a
key — never via a child entry and never more than one parent step; and
`getEmrConfig` returns the entry under exactly the same resolution rule
(so the two agree: `isEmrConfigurable = (getEmrConfig _).isSome`). -/
theorem emr_config_resolution (cfg : EmrConfigMap) (p : String) :
    (isEmrConfigurable cfg p = true ↔
      (cfg p).isSome = true ∨
        ∃ a b c, jsSplit '.' p = [a, b, c] ∧ (cfg (a ++ "." ++ b)).isSome = true)
    ∧ (∀ e : EmrConfigEntry,
        getEmrConfig cfg p = some e ↔
          cfg p = some e ∨
            (cfg p = none ∧
              ∃ a b c, jsSplit '.' p = [a, b, c] ∧ cfg (a ++ "." ++ b) = some e))
    ∧ isEmrConfigurable cfg p = (getEmrConfig cfg p).isSome := by
  refine ⟨?_, ?_, ?_⟩ <;>
  · rcases hc : cfg p with _ | e0 <;>
      rcases hs : jsSplit '.' p with _ | ⟨a, _ | ⟨b, _ | ⟨c, _ | ⟨d, tl⟩⟩⟩⟩ <;>
      simp [isEmrConfigurable, getEmrConfig, hc, hs] <;>
      aesop

/-- **C9.** `getFieldLabel` is total over arbitrary position strings: when
the position has fewer than 2 dot-separated parts, when the segment code is
unknown, or — more generally — when no field definition is found for the
parsed code and field number, it returns the input position unchanged; when
the position has exactly 3 parts and a component definition is found it
returns `"<fieldName> › <componentName>"`; otherwise it returns the field
name alone. -/
theorem field_label_resolution (segmentMap : SegmentMap) (position : String) :
    (((jsSplit '.' position).length < 2 →
        getFieldLabel segmentMap position = position)
      ∧ (∀ p0 p1 rest, jsSplit '.' position = p0 :: p1 :: rest →
          segmentMap p0 = none →
          getFieldLabel segmentMap position = position)
      ∧ (∀ p0 p1 rest, jsSplit '.' position = p0 :: p1 :: rest →
          getFieldDefinition segmentMap p0 (jsParseInt10 p1) = none →
          getFieldLabel segmentMap position = position))
    ∧ (∀ p0 p1 p2 field comp,
        jsSplit '.' position = [p0, p1, p2] →
        getFieldDefinition segmentMap p0 (jsParseInt10 p1) = some field →
        getComponentDefinition segmentMap p0 (jsParseInt10 p1) (jsParseInt10 p2)
          = some comp →
        getFieldLabel segmentMap position = field.name ++ " › " ++ comp.name)
    ∧ (∀ p0 p1 rest field,
        jsSplit '.' position = p0 :: p1 :: rest →
        getFieldDefinition segmentMap p0 (jsParseInt10 p1) = some field →
        (∀ p2, rest = [p2] →
          getComponentDefinition segmentMap p0 (jsParseInt10 p1) (jsParseInt10 p2)
            = none) →
        getFieldLabel segmentMap position = field.name) := by
  refine ⟨⟨?_, ?_, ?_⟩, ?_, ?_⟩
  · intro hlen
    rcases hs : jsSplit '.' position with _ | ⟨p0, _ | ⟨p1, rest⟩⟩
    · simp [getFieldLabel, hs]
    · simp [getFieldLabel, hs]
    · rw [hs] at hlen
      simp only [List.length_cons] at hlen
      omega
  · intro p0 p1 rest hs hseg
    have hf : getFieldDefinition segmentMap p0 (jsParseInt10 p1) = none := by
      simp [getFieldDefinition, hseg]
    simp [getFieldLabel, hs, hf]
  · intro p0 p1 rest hs hf
    simp [getFieldLabel, hs, hf]
  · intro p0 p1 p2 field comp hs hf hcomp
    simp [getFieldLabel, hs, hf, hcomp]
  · intro p0 p1 rest field hs hf hnone
    rcases rest with _ | ⟨p2, _ | ⟨p3, more⟩⟩
    · simp [getFieldLabel, hs, hf]
    · simp [getFieldLabel, hs, hf, hnone p2 rfl]
    · simp [getFieldLabel, hs, hf]

theorem extractMshField_none (segs : List ParsedSegment) (i : Nat)
    (h : segs.find? (fun s => s.name == "MSH") = none) :
    extractMshField segs i = "" := by
  unfold extractMshField
  rw [h]

theorem extractMshField_some (segs : List ParsedSegment) (i : Nat)
    (m : ParsedSegment) (h : segs.find? (fun s => s.name == "MSH") = some m) :
    extractMshField segs i
      = match m.fields.get? i with | some f => f.value | none => "" := by
  unfold extractMshField
  rw [h]

theorem find?_append_first {α : Type} (p : α → Bool) :
    ∀ (pre : List α) (x : α) (post : List α),
      (∀ s ∈ pre, p s = false) → p x = true →
      (pre ++ x :: post).find? p = some x := by
  intro pre
  induction pre with
  | nil =>
    intro x post _ hx
    simp [List.find?, hx]
  | cons a as ih =>
    intro x post hpre hx
    have ha : p a = false := hpre a (List.mem_cons_self a as)
    simp only [List.cons_append, List.find?, ha]
    exact ih x post (fun s hs => hpre s (List.mem_cons_of_mem a hs)) hx

/-- **C2.** For every raw message, `parseHL7Message` locates the first
segment named `MSH` and sets `timestamp` to the value of that segment's
parsed field at array index 6 and `messageType` to the value at array
index 8, each defaulting to `""` when the MSH segment is absent or the
respective index does not exist in the field array. -/
theorem message_type_timestamp_extraction (raw : String) (fn : Option String) :
    ((parseHL7Message raw fn).segments.find? (fun s => s.name == "MSH") = none →
        (parseHL7Message raw fn).timestamp = ""
        ∧ (parseHL7Message raw fn).messageType = "")
    ∧ (∀ msh,
        (parseHL7Message raw fn).segments.find? (fun s => s.name == "MSH")
            = some msh →
        ((parseHL7Message raw fn).timestamp
            = match msh.fields.get? 6 with | some f => f.value | none => "")
        ∧ ((parseHL7Message raw fn).messageType
            = match msh.fields.get? 8 with | some f => f.value | none => "")) := by
  constructor
  · intro h
    exact ⟨extractMshField_none _ 6 h, extractMshField_none _ 8 h⟩
  · intro msh h
    exact ⟨extractMshField_some _ 6 msh h, extractMshField_some _ 8 msh h⟩

/-- **C10.** The distinguished-segment special case is keyed on the segment
name, not on message position: every parsed segment named `MSH`, wherever it
occurs in the message, has the special field array
`["MSH", "|", ...line.substring(4).split('|')]`; and when the first
`MSH`-named segment in document order is preceded by non-`MSH` segments,
`timestamp` and `messageType` are still extracted from it. -/
theorem msh_special_case_keyed_on_name (raw : String) (fn : Option String) :
    (∀ s ∈ (parseHL7Message raw fn).segments, s.name = "MSH" →
        s.fields.map ParsedField.value
          = "MSH" :: "|" :: jsSplit '|' (String.mk (s.raw.data.drop 4)))
    ∧ (∀ pre msh post,
        (parseHL7Message raw fn).segments = pre ++ msh :: post →
        (∀ s ∈ pre, s.name ≠ "MSH") →
        msh.name = "MSH" →
        ((parseHL7Message raw fn).timestamp
            = match msh.fields.get? 6 with | some f => f.value | none => "")
        ∧ ((parseHL7Message raw fn).messageType
            = match msh.fields.get? 8 with | some f => f.value | none => "")) := by
  constructor
  · intro s hs hname
    rcases List.mem_map.mp hs with ⟨str, _, rfl⟩
    have h : segName str = "MSH" := hname
    have hv := parseSegment_fields_map_value str
    rw [segFieldStrings_msh str h] at hv
    exact hv
  · intro pre msh post hseg hpre hname
    have hfind : (parseHL7Message raw fn).segments.find?
        (fun s => s.name == "MSH") = some msh := by
      rw [hseg]
      refine find?_append_first _ pre msh post (fun s hs => ?_) ?_
      · simpa using hpre s hs
      · simpa using hname
    exact ⟨extractMshField_some _ 6 msh hfind, extractMshField_some _ 8 msh hfind⟩

theorem all_ws_replaceCRLF : ∀ (l : List Char),
    (∀ c ∈ l, isJsWhitespace c = true) →
    ∀ c ∈ replaceCRLF l, isJsWhitespace c = true
  | [], _, c, hc => by simp [replaceCRLF] at hc
  | [a], h, c, hc => by
      simp only [replaceCRLF, List.mem_singleton] at hc
      exact hc ▸ h a (List.mem_singleton_self a)
  | a :: b :: rest, h, c, hc => by
      simp only [replaceCRLF] at hc
      by_cases hab : a = '\r' ∧ b = '\n'
      · rw [if_pos hab] at hc
        rcases List.mem_cons.mp hc with h1 | h1
        · subst h1; decide
        · exact all_ws_replaceCRLF rest
            (fun d hd => h d (by simp [hd])) c h1
      · rw [if_neg hab] at hc
        rcases List.mem_cons.mp hc with h1 | h1
        · subst h1; exact h c (List.mem_cons_self c (b :: rest))
        · exact all_ws_replaceCRLF (b :: rest)
            (fun d hd => h d (List.mem_cons_of_mem a hd)) c h1

theorem all_ws_replaceLF (l : List Char)
    (h : ∀ c ∈ l, isJsWhitespace c = true) :
    ∀ c ∈ replaceLF l, isJsWhitespace c = true := by
  intro c hc
  rcases List.mem_map.mp hc with ⟨d, hd, rfl⟩
  by_cases hdn : d = '\n'
  · simp only [hdn, if_pos rfl]
    decide
  · simp only [if_neg hdn]
    exact h d hd

theorem jsTrim_eq_nil (l : List Char)
    (h : ∀ c ∈ l, isJsWhitespace c = true) : jsTrim l = [] := by
  unfold jsTrim
  have h1 : l.dropWhile isJsWhitespace = [] :=
    List.dropWhile_eq_nil_iff.mpr h
  rw [h1]
  rfl

theorem messageSegments_blank (raw : String)
    (h : ∀ c ∈ raw.data, isJsWhitespace c = true) :
    messageSegments raw = [] := by
  unfold messageSegments
  have hn : ∀ c ∈ replaceLF (replaceCRLF raw.data), isJsWhitespace c = true :=
    all_ws_replaceLF _ (all_ws_replaceCRLF _ h)
  have hfilter : (jsSplit '\r'
      (String.mk (replaceLF (replaceCRLF raw.data)))).filter
        (fun s => (jsTrim s.data).length > 0) = [] := by
    rw [List.filter_eq_nil]
    intro s hs
    rcases List.mem_map.mp hs with ⟨t, ht, rfl⟩
    have htr : jsTrim t = [] :=
      jsTrim_eq_nil t (fun c hc => hn c (mem_of_mem_splitCh ht c hc))
    simp [data_mk, htr]
  rw [hfilter]
  rfl

/-- **C6.** `parseHL7Message` is a total Lean function over arbitrary input
strings — by construction it never raises and always returns a
`ParsedMessage` carrying the input text and label; an empty or
entirely-blank input yields a message with an empty segment sequence. -/
theorem parse_message_total_blank_input (raw : String) (fn : Option String) :
    (parseHL7Message raw fn).raw = raw
    ∧ (parseHL7Message raw fn).fileName = fn
    ∧ ((∀ c ∈ raw.data, isJsWhitespace c = true) →
        (parseHL7Message raw fn).segments = [])
    ∧ (parseHL7Message "" fn).segments = [] := by
  refine ⟨rfl, rfl, ?_, ?_⟩
  · intro h
    exact messageSegments_blank raw h
  · exact messageSegments_blank "" (fun c hc => absurd hc (List.not_mem_nil c))

/-- **C7.** For both mutation operations, a collaborator response reporting
failure (`success: false`) or a thrown call leaves the in-memory state
completely unchanged, and the failure result (the collaborator's reply, or
the caught error message) is returned to the caller. -/
theorem save_failure_leaves_state_unchanged (st : DictState)
    (segment : String) (fieldIndex : Int) (name description : String)
    (position : String) (payload : PartialEmrConfigEntry) :
    (∀ err : String,
        saveFieldUpdate st (.error err) segment fieldIndex name description
            = (st, .failed err)
        ∧ saveEmrUpdate st (.error err) position payload = (st, .failed err))
    ∧ (∀ r : FieldApiResult, r.success = false →
        saveFieldUpdate st (.ok r) segment fieldIndex name description
          = (st, .api r))
    ∧ (∀ r : EmrApiResult, r.success = false →
        saveEmrUpdate st (.ok r) position payload = (st, .api r)) := by
  refine ⟨fun err => ⟨rfl, rfl⟩, ?_, ?_⟩
  · intro r hr
    simp [saveFieldUpdate, hr]
  · intro r hr
    rcases hd : r.data with _ | e
    · simp [saveEmrUpdate, hd]
    · simp [saveEmrUpdate, hd, hr]

/-- **C8.** When the collaborator confirms a configurability upsert with
`success: true` and a returned entry, the table stores exactly that
returned entry at the requested position (regardless of the caller's
request payload) and is unchanged elsewhere; a confirmed response carrying
no entry stores nothing. -/
theorem emr_upsert_stores_confirmed_entry (st : DictState)
    (position : String) (payload : PartialEmrConfigEntry) (r : EmrApiResult) :
    (∀ entry, r.success = true → r.data = some entry →
        (saveEmrUpdate st (.ok r) position payload).1.emrConfigMap position
            = some entry
        ∧ (∀ q, q ≠ position →
            (saveEmrUpdate st (.ok r) position payload).1.emrConfigMap q
              = st.emrConfigMap q)
        ∧ (saveEmrUpdate st (.ok r) position payload).1.segmentMap
            = st.segmentMap
        ∧ (saveEmrUpdate st (.ok r) position payload).2 = .api r)
    ∧ (r.success = true → r.data = none →
        saveEmrUpdate st (.ok r) position payload = (st, .api r)) := by
  constructor
  · intro entry hs hd
    have hpair : saveEmrUpdate st (.ok r) position payload
        = ({ st with emrConfigMap := fun p =>
              if p = position then some entry else st.emrConfigMap p },
           .api r) := by
      simp [saveEmrUpdate, hd, hs]
    rw [hpair]
    exact ⟨by simp, fun q hq => by simp [hq], rfl, rfl⟩
  · intro hs hd
    simp [saveEmrUpdate, hd]

end MIEHL7
